import Mathlib

/-!
Shallow embedding of the tag-normalization repository
(`first_implementation.py`, `second_implementation.py`, `delete_cache.py`).

Modelling conventions:
* Python dicts are insertion-ordered association lists `List (String × α)`;
  `updAssoc` models `d[k] = v` (update in place, else append), `lookupAssoc`
  models `d.get(k)`, `eraseKey` models `del d[k]`.
* Timestamps are integers (one unit = one day); `now` is passed explicitly in
  place of `datetime.now()`, and the ISO-8601 encoding is abstracted away.
  `load_cache`/`save_cache` (file IO) are modelled by taking the loaded cache
  as an argument and returning the cache that is saved.
* Python's Unicode `str.lower` / `str.isupper` are modelled on the character
  ranges this repository uses (ASCII letters and the Cyrillic block А-Я/Ё);
  all other characters are left unchanged / non-upper.
* Python string methods (`replace`, `split`, `strip`, `join`) are modelled
  directly on the underlying character lists (`String.data`), so that every
  definition evaluates inside the kernel.
* Python floats are modelled as exact rationals `ℚ`.
-/

namespace TagRules

/-- Python dict assignment `d[k] = v`: replaces the value at an existing key
in place, otherwise appends the new pair at the end (insertion order). -/
def updAssoc {α : Type} : List (String × α) → String → α → List (String × α)
  | [], k, v => [(k, v)]
  | (k', v') :: rest, k, v =>
    if k' = k then (k, v) :: rest else (k', v') :: updAssoc rest k v

/-- Python `d.get(k)`: value at the first matching key, `none` if absent. -/
def lookupAssoc {α : Type} : List (String × α) → String → Option α
  | [], _ => none
  | (k', v) :: rest, k => if k' = k then some v else lookupAssoc rest k

/-- Python `del d[k]`: removes the first pair with the given key. -/
def eraseKey {α : Type} : List (String × α) → String → List (String × α)
  | [], _ => []
  | (k', v) :: rest, k => if k' = k then rest else (k', v) :: eraseKey rest k

/-- Model of Python `str.lower()` on one character, covering the ASCII and
Cyrillic ranges used by the repository. -/
def pyLowerChar (c : Char) : Char :=
  if 65 ≤ c.toNat ∧ c.toNat ≤ 90 then Char.ofNat (c.toNat + 32)
  else if 0x410 ≤ c.toNat ∧ c.toNat ≤ 0x42F then Char.ofNat (c.toNat + 32)
  else if c.toNat = 0x401 then Char.ofNat 0x451
  else c

/-- Model of Python `str.isupper()` on one character, covering the ASCII and
Cyrillic ranges used by the repository. -/
def pyIsUpper (c : Char) : Bool :=
  (65 ≤ c.toNat ∧ c.toNat ≤ 90) ∨ (0x410 ≤ c.toNat ∧ c.toNat ≤ 0x42F) ∨ c.toNat = 0x401

/-- Python `s.replace(old, new)` for a single-character pattern (the only form
the repository uses): substitute every occurrence of the character. -/
def pyReplaceChar (old new : Char) (s : String) : String :=
  String.mk (s.data.map (fun c => if c = old then new else c))

/-- Python `s.lower()` (on the modelled character ranges). -/
def pyLower (s : String) : String :=
  String.mk (s.data.map pyLowerChar)

/-- Python `s.strip()`: remove leading and trailing whitespace. -/
def pyStrip (s : String) : String :=
  String.mk (((s.data.dropWhile Char.isWhitespace).reverse.dropWhile
    Char.isWhitespace).reverse)

/-- The scan of Python `s.split(sep)` (non-empty separator): non-overlapping
left-to-right occurrences of the separator cut the string; `fuel` bounds the
structural recursion and `pySplit` supplies enough for the whole string. -/
def splitSeqGo (sep : List Char) : Nat → List Char → List Char → List (List Char)
  | 0, acc, _ => [acc]
  | fuel + 1, acc, rest =>
    if sep.isPrefixOf rest then acc :: splitSeqGo sep fuel [] (rest.drop sep.length)
    else
      match rest with
      | [] => [acc]
      | c :: cs => splitSeqGo sep fuel (acc ++ [c]) cs

/-- Python `s.split(sep)` for a non-empty separator string; `"".split(sep)`
is `[""]`. -/
def pySplit (sep : String) (s : String) : List String :=
  (splitSeqGo sep.data (s.data.length + 1) [] s.data).map String.mk

/-- Python `sep.join(parts)`. -/
def pyJoin (sep : String) : List String → String
  | [] => ""
  | [s] => s
  | s :: rest => String.mk (s.data ++ sep.data ++ (pyJoin sep rest).data)

/-- `normalize_tag` (identical in both implementation files): replace every
space and hyphen with an underscore, then lowercase. -/
def normalize_tag (tag : String) : String :=
  pyLower (pyReplaceChar '-' '_' (pyReplaceChar ' ' '_' tag))

/-- A row of the rule table (`AllowedTagRecord`, identical in both files).
`synonyms` is a single comma-space-separated string or `None`. -/
structure AllowedTagRecord where
  allowed_name : String
  synonyms : Option String
  immutable : Bool
  separated : Bool

/-- The synonym index `allowed_tags_with_synonyms`: normalized key to
canonical `allowed_name`, in Python dict insertion order. -/
abbrev SynIndex : Type := List (String × String)

/-- The invalid-tag cache: raw token to (integer) timestamp. -/
abbrev Cache : Type := List (String × Int)

/-- The dict comprehension
`{normalize_tag(record.allowed_name): record.allowed_name for record in rules}`. -/
def buildAllowedTags (rules : List AllowedTagRecord) : SynIndex :=
  rules.foldl (fun idx r => updAssoc idx (normalize_tag r.allowed_name) r.allowed_name) []

/-- `allowed_tags_with_synonyms`: the allowed-tag dict extended, rule by rule,
with `normalize_tag(synonym) ↦ record.allowed_name` for each comma-space
separated synonym.  Python's `if record.synonyms:` skips `None` and `""`. -/
def buildIndex (rules : List AllowedTagRecord) : SynIndex :=
  rules.foldl
    (fun idx r =>
      match r.synonyms with
      | none => idx
      | some s =>
        if s = "" then idx
        else (pySplit ", " s).foldl
          (fun idx2 syn => updAssoc idx2 (normalize_tag syn) r.allowed_name) idx)
    (buildAllowedTags rules)

/-- The character scan of `split_composite_tag`: close the accumulated part at
every uppercase letter (when the accumulator is non-empty), append the final
accumulator if non-empty. -/
def splitPartsGo : List Char → String → List String
  | [], cur => if cur = "" then [] else [cur]
  | c :: cs, cur =>
    if pyIsUpper c ∧ cur ≠ "" then cur :: splitPartsGo cs (String.singleton c)
    else splitPartsGo cs (cur.push c)

/-- The sub-token list produced by `split_composite_tag`'s scan of the raw tag. -/
def splitParts (tag : String) : List String :=
  splitPartsGo tag.data ""

/-- `split_composite_tag` (identical in both files): split the raw tag at
uppercase boundaries and keep, in order, the canonical names of the parts
whose normalization is a key of the index. -/
def split_composite_tag (tag : String) (idx : SynIndex) : List String :=
  (splitParts tag).filterMap (fun p => lookupAssoc idx (normalize_tag p))

/-- `CACHE_EXPIRATION_DAYS` from `delete_cache.py`. -/
def CACHE_EXPIRATION_DAYS : Int := 14

/-- `clean_cache` from `delete_cache.py`: delete every entry whose timestamp
is strictly older than `CACHE_EXPIRATION_DAYS` before `now`. -/
def clean_cache (c : Cache) (now : Int) : Cache :=
  c.filter (fun kv => !decide (now - kv.2 > CACHE_EXPIRATION_DAYS))

namespace FirstImpl

/-- One step of the greedy scan of `is_tokens_fuzzy_equal`: mark the first
unused equal character of the second token, if any. -/
def markFirst (c : Char) : List (Char × Bool) → Option (List (Char × Bool))
  | [] => none
  | (c', used) :: rest =>
    if ¬used ∧ c' = c then some ((c', true) :: rest)
    else (markFirst c rest).map (fun r => (c', used) :: r)

/-- The greedy pairing count of `is_tokens_fuzzy_equal`: for each character of
the first token, in order, consume the first unused equal character of the
second token. -/
def matchCountGo : List Char → List (Char × Bool) → Nat
  | [], _ => 0
  | c :: cs, marks =>
    match markFirst c marks with
    | some marks' => matchCountGo cs marks' + 1
    | none => matchCountGo cs marks

/-- `equal_subtokens_count` computed by `is_tokens_fuzzy_equal` (with
`subtoken_length = 1`, sub-tokens are single characters). -/
def matchCount (a b : List Char) : Nat :=
  matchCountGo a (b.map (fun c => (c, false)))

/-- The Tanimoto value `matches / (len(a) + len(b) - matches)` computed by
`is_tokens_fuzzy_equal`, as a total rational-valued function (`ℚ` division
by zero yields `0`; the fallible faithful version is
`is_tokens_fuzzy_equal` below). -/
def tanimotoScore (a b : String) : ℚ :=
  let m := matchCount a.data b.data
  (m : ℚ) / ((a.length : ℚ) + (b.length : ℚ) - (m : ℚ))

/-- `is_tokens_fuzzy_equal` from `first_implementation.py`.  The Python
function raises `ZeroDivisionError` exactly when the denominator
`len(a) + len(b) - matches` is zero; that outcome is modelled as `none`. -/
def is_tokens_fuzzy_equal (a b : String) : Option ℚ :=
  if a.length + b.length = matchCount a.data b.data then none
  else some (tanimotoScore a b)

/-- The key-selection loop of `find_best_match`: starting from
`best_match = None`, `best_score = 0.6`, update both whenever a key's score
is strictly greater than the running best. -/
def fbmGo (n : String) : List String → Option String → ℚ → Option String
  | [], best, _ => best
  | k :: ks, best, bs =>
    if bs < tanimotoScore n k then fbmGo n ks (some k) (tanimotoScore n k)
    else fbmGo n ks best bs

/-- `find_best_match` from `first_implementation.py`: run the selection loop
over the index keys against the normalized tag, then
`allowed_tags_with_synonyms.get(best_match) if best_match else None`
(the Python truthiness test also rejects an empty-string key). -/
def find_best_match (tag : String) (idx : SynIndex) : Option String :=
  match fbmGo (normalize_tag tag) (idx.map Prod.fst) none (3 / 5) with
  | none => none
  | some k => if k = "" then none else lookupAssoc idx k

end FirstImpl

namespace SecondImpl

/-- Length of the common run of equal characters at the heads of two lists. -/
def runLenAux : List Char → List Char → Nat
  | a :: as, b :: bs => if a = b then runLenAux as bs + 1 else 0
  | _, _ => 0

/-- Size of the matching block starting at positions `i`, `j`, clipped to the
windows ending at `ahi`, `bhi` (difflib operates on index windows). -/
def blockSize (a b : List Char) (i j ahi bhi : Nat) : Nat :=
  min (runLenAux (a.drop i) (b.drop j)) (min (ahi - i) (bhi - j))

/-- Model of difflib `SequenceMatcher.find_longest_match` (no junk): the
longest matching block inside the windows, ties going to the block that
starts earliest in `a`, then earliest in `b`. -/
def findLongestMatch (a b : List Char) (alo ahi blo bhi : Nat) : Nat × Nat × Nat :=
  (List.range' alo (ahi - alo)).foldl
    (fun best i =>
      (List.range' blo (bhi - blo)).foldl
        (fun best2 j =>
          let k := blockSize a b i j ahi bhi
          if best2.2.2 < k then (i, j, k) else best2)
        best)
    (alo, blo, 0)

/-- The total size of difflib's matching blocks: recursively take the longest
match and recurse on the windows to its left and right.  `fuel` bounds the
recursion depth; `matchingTotal` supplies enough fuel for the whole strings. -/
def matchingTotalGo (a b : List Char) : Nat → Nat → Nat → Nat → Nat → Nat
  | 0, _, _, _, _ => 0
  | fuel + 1, alo, ahi, blo, bhi =>
    let r := findLongestMatch a b alo ahi blo bhi
    if r.2.2 = 0 then 0
    else
      matchingTotalGo a b fuel alo r.1 blo r.2.1 + r.2.2 +
        matchingTotalGo a b fuel (r.1 + r.2.2) ahi (r.2.1 + r.2.2) bhi

/-- Total number of matched characters (`sum of matching block sizes`). -/
def matchingTotal (a b : List Char) : Nat :=
  matchingTotalGo a b (a.length + b.length + 1) 0 a.length 0 b.length

/-- Model of difflib `SequenceMatcher.ratio()`: `2*M / (len(a)+len(b))`,
returning `1` when both strings are empty (difflib `_calculate_ratio`). -/
def ratioScore (a b : String) : ℚ :=
  if a.length + b.length = 0 then 1
  else 2 * (matchingTotal a.data b.data : ℚ) / ((a.length : ℚ) + (b.length : ℚ))

/-- `find_best_match` from `second_implementation.py`, via
`difflib.get_close_matches(normalized, keys, n=1, cutoff=0.6)`: the
candidates are the keys whose ratio against the normalized tag is at least
`0.6` (difflib's quick-ratio gates are upper bounds of `ratio` and never
exclude such a key), and `heapq.nlargest(1, ...)` keeps the pair
`(score, key)` that is largest lexicographically — highest score, ties going
to the lexicographically larger key string. -/
def find_best_match (tag : String) (idx : SynIndex) : Option String :=
  let n := normalize_tag tag
  let cands := (idx.map (fun kv => (ratioScore kv.1 n, kv.1))).filter
    (fun p => decide ((3 : ℚ) / 5 ≤ p.1))
  let best := cands.foldl
    (fun acc p =>
      match acc with
      | none => some p
      | some q => if q.1 < p.1 ∨ (q.1 = p.1 ∧ q.2 < p.2) then some p else some q)
    none
  match best with
  | none => none
  | some q => lookupAssoc idx q.2

end SecondImpl

/-- Per-token resolution shared by both `apply_tag_rules` bodies, parameterized
by the fuzzy matcher: exact lookup of the normalized token, else composite
split of the raw token (used only if non-empty), else the fuzzy matcher.  The
returned list is the token's contribution to `result_tags`; it is empty
exactly when the token fails all three steps. -/
def resolveTokenWith (fbm : String → SynIndex → Option String)
    (idx : SynIndex) (tag : String) : List String :=
  match lookupAssoc idx (normalize_tag tag) with
  | some v => [v]
  | none =>
    match split_composite_tag tag idx with
    | [] =>
      match fbm tag idx with
      | some v => [v]
      | none => []
    | p :: ps => p :: ps

/-- The `for tag in tags.split(";")` loop of `apply_tag_rules`: trim each
token, append its resolution to `result_tags`, and (when it fails and
`delayed_clean` is set) record the raw trimmed token in the cache with the
current timestamp. -/
def processTokens (fbm : String → SynIndex → Option String) (idx : SynIndex)
    (dc : Bool) (now : Int) : List String → Cache → List String × Cache
  | [], c => ([], c)
  | r :: rs, c =>
    let t := pyStrip r
    let contrib := resolveTokenWith fbm idx t
    let c' := if contrib = [] then (if dc then updAssoc c t now else c) else c
    let rest := processTokens fbm idx dc now rs c'
    (contrib ++ rest.1, rest.2)

/-- The reconciliation loop of `apply_tag_rules` (`delayed_clean` branch):
iterate over the cache's key list and delete every key that occurs in
`result_tags` (verbatim string comparison, no normalization). -/
def reconcile (c : Cache) (res : List String) : Cache :=
  (c.map Prod.fst).foldl (fun acc k => if k ∈ res then eraseKey acc k else acc) c

/-- First-occurrence deduplication, as `collections.OrderedDict.fromkeys`. -/
def dedupFirstAux : List String → List String → List String
  | _, [] => []
  | seen, x :: xs =>
    if x ∈ seen then dedupFirstAux seen xs else x :: dedupFirstAux (x :: seen) xs

/-- `list(collections.OrderedDict.fromkeys(result_tags))`. -/
def dedupFirst (l : List String) : List String :=
  dedupFirstAux [] l

/-- `apply_tag_rules` (both implementation files share this body, differing
only in `find_best_match`): load the cache (argument), clean it, build the
synonym index, process the semicolon-separated tokens, reconcile the cache
against `result_tags` when `delayed_clean` is set, save the cache (second
component of the result), and return the deduplicated canonical tags joined
with `"; "`. -/
def applyTagRulesWith (fbm : String → SynIndex → Option String) (tags : String)
    (rules : List AllowedTagRecord) (delayed_clean : Bool) (now : Int)
    (cache : Cache) : String × Cache :=
  let c0 := clean_cache cache now
  let idx := buildIndex rules
  let pr := processTokens fbm idx delayed_clean now (pySplit ";" tags) c0
  let c2 := if delayed_clean then reconcile pr.2 pr.1 else pr.2
  (pyJoin "; " (dedupFirst pr.1), c2)

/-- `apply_tag_rules` of `first_implementation.py` (Tanimoto scorer). -/
def FirstImpl.apply_tag_rules (tags : String) (rules : List AllowedTagRecord)
    (delayed_clean : Bool) (now : Int) (cache : Cache) : String × Cache :=
  applyTagRulesWith FirstImpl.find_best_match tags rules delayed_clean now cache

/-- `apply_tag_rules` of `second_implementation.py` (sequence-matcher scorer). -/
def SecondImpl.apply_tag_rules (tags : String) (rules : List AllowedTagRecord)
    (delayed_clean : Bool) (now : Int) (cache : Cache) : String × Cache :=
  applyTagRulesWith SecondImpl.find_best_match tags rules delayed_clean now cache

/-! ### Association-list lemmas -/

theorem lookupAssoc_updAssoc {α : Type} (c : List (String × α)) (k k' : String) (v : α) :
    lookupAssoc (updAssoc c k v) k' = if k = k' then some v else lookupAssoc c k' := by
  induction c with
  | nil => simp [updAssoc, lookupAssoc]
  | cons p rest ih =>
    obtain ⟨pk, pv⟩ := p
    by_cases h : pk = k
    · subst h
      by_cases h' : pk = k' <;> simp [updAssoc, lookupAssoc, h']
    · by_cases h' : pk = k'
      · have hkk' : ¬ k = k' := fun hh => h (h'.trans hh.symm)
        have hk'k : ¬ k' = k := fun hh => hkk' hh.symm
        simp [updAssoc, lookupAssoc, h, h', hkk', hk'k]
      · simp [updAssoc, lookupAssoc, h, h', ih]

theorem mem_updAssoc {α : Type} {c : List (String × α)} {k : String} {v : α}
    {x : String × α} : x ∈ updAssoc c k v → x ∈ c ∨ x = (k, v) := by
  induction c with
  | nil =>
    intro hx
    right
    simpa [updAssoc] using hx
  | cons p rest ih =>
    obtain ⟨pk, pv⟩ := p
    intro hx
    by_cases h : pk = k
    · rw [show updAssoc ((pk, pv) :: rest) k v = (k, v) :: rest by simp [updAssoc, h]] at hx
      rcases List.mem_cons.mp hx with h1 | h1
      · exact Or.inr h1
      · exact Or.inl (List.mem_cons_of_mem _ h1)
    · rw [show updAssoc ((pk, pv) :: rest) k v = (pk, pv) :: updAssoc rest k v by
        simp [updAssoc, h]] at hx
      rcases List.mem_cons.mp hx with h1 | h1
      · exact Or.inl (h1 ▸ List.mem_cons_self _ _)
      · rcases ih h1 with h2 | h2
        · exact Or.inl (List.mem_cons_of_mem _ h2)
        · exact Or.inr h2

theorem lookupAssoc_eq_none_not_mem {α : Type} {c : List (String × α)} {k : String}
    (h : lookupAssoc c k = none) : ∀ v : α, (k, v) ∉ c := by
  induction c with
  | nil => simp
  | cons p rest ih =>
    obtain ⟨pk, pv⟩ := p
    intro v hv
    by_cases hk : pk = k
    · simp [lookupAssoc, hk] at h
    · simp only [lookupAssoc, if_neg hk] at h
      rcases List.mem_cons.mp hv with h1 | h1
      · exact hk (by injection h1 with h2 _; exact h2.symm)
      · exact ih h v h1

theorem lookupAssoc_filter_not_mem (c : Cache) (res : List String) (k : String)
    (hk : k ∉ res) :
    lookupAssoc (c.filter (fun kv => !decide (kv.1 ∈ res))) k = lookupAssoc c k := by
  induction c with
  | nil => rfl
  | cons p rest ih =>
    obtain ⟨pk, pv⟩ := p
    by_cases hpk : pk = k
    · subst hpk
      simp [List.filter_cons, hk, lookupAssoc]
    · by_cases hp : pk ∈ res
      · simp [List.filter_cons, hp, lookupAssoc, hpk, ih]
      · simp [List.filter_cons, hp, lookupAssoc, hpk, ih]

/-! ### The reconciliation loop removes exactly the cached keys that occur in
`result_tags` -/

theorem foldl_erase_cons (res : List String) (k : String) (v : Int) (hk : k ∉ res) :
    ∀ (ks : List String) (acc : Cache),
      ks.foldl (fun acc k' => if k' ∈ res then eraseKey acc k' else acc) ((k, v) :: acc)
        = (k, v) :: ks.foldl (fun acc k' => if k' ∈ res then eraseKey acc k' else acc) acc := by
  intro ks
  induction ks with
  | nil => intro acc; rfl
  | cons k'' ks' ih =>
    intro acc
    by_cases h : k'' ∈ res
    · have hkne : ¬ k = k'' := fun hh => hk (hh ▸ h)
      simp only [List.foldl_cons, if_pos h, eraseKey, if_neg hkne]
      exact ih (eraseKey acc k'')
    · simp only [List.foldl_cons, if_neg h]
      exact ih acc

theorem reconcile_eq_filter (c : Cache) (res : List String) :
    reconcile c res = c.filter (fun kv => !decide (kv.1 ∈ res)) := by
  induction c with
  | nil => rfl
  | cons p rest ih =>
    obtain ⟨pk, pv⟩ := p
    by_cases h : pk ∈ res
    · simp only [reconcile, List.map_cons, List.foldl_cons, if_pos h, eraseKey, if_pos rfl]
      simpa [List.filter_cons, h] using ih
    · simp only [reconcile, List.map_cons, List.foldl_cons, if_neg h]
      rw [foldl_erase_cons res pk pv h]
      simpa [List.filter_cons, h] using ih

/-! ### Cleaning and the TTL bound -/

theorem mem_clean_cache {c : Cache} {now : Int} {x : String × Int}
    (hx : x ∈ clean_cache c now) : now - x.2 ≤ CACHE_EXPIRATION_DAYS := by
  have := List.of_mem_filter hx
  simpa using this

/-! ### Token-processing lemmas -/

/-- `result_tags` is the concatenation of the per-token contributions; it does
not depend on the cache threaded through the loop. -/
theorem processTokens_fst (fbm : String → SynIndex → Option String) (idx : SynIndex)
    (dc : Bool) (now : Int) :
    ∀ (rs : List String) (c : Cache),
      (processTokens fbm idx dc now rs c).1
        = rs.flatMap (fun r => resolveTokenWith fbm idx (pyStrip r)) := by
  intro rs
  induction rs with
  | nil => intro c; rfl
  | cons r rs' ih =>
    intro c
    simp only [processTokens, List.flatMap_cons]
    rw [ih]

/-- Membership across one cache-update step of the token loop. -/
theorem mem_if_upd {c : Cache} {t : String} {now : Int} {b : Bool} {e : List String}
    {x : String × Int}
    (h1 : x ∈ (if e = [] then (if b then updAssoc c t now else c) else c)) :
    x ∈ c ∨ x = (t, now) := by
  by_cases h2 : e = []
  · rw [if_pos h2] at h1
    by_cases h3 : b = true
    · rw [if_pos h3] at h1
      exact mem_updAssoc h1
    · rw [if_neg h3] at h1
      exact Or.inl h1
  · rw [if_neg h2] at h1
    exact Or.inl h1

/-- Lookup of a `now`-valued entry across one cache-update step. -/
theorem lookup_if_upd_now {c : Cache} {t u : String} {now : Int} {b : Bool}
    {e : List String} (hc : lookupAssoc c t = some now) :
    lookupAssoc (if e = [] then (if b then updAssoc c u now else c) else c) t
      = some now := by
  by_cases h2 : e = []
  · rw [if_pos h2]
    by_cases h3 : b = true
    · rw [if_pos h3, lookupAssoc_updAssoc]
      by_cases h4 : u = t
      · rw [if_pos h4]
      · rw [if_neg h4]; exact hc
    · rw [if_neg h3]; exact hc
  · rw [if_neg h2]; exact hc

/-- Every entry of the cache after the token loop either was already present
or carries the current timestamp. -/
theorem processTokens_snd_mem (fbm : String → SynIndex → Option String) (idx : SynIndex)
    (dc : Bool) (now : Int) :
    ∀ (rs : List String) (c : Cache) (x : String × Int),
      x ∈ (processTokens fbm idx dc now rs c).2 → x ∈ c ∨ x.2 = now := by
  intro rs
  induction rs with
  | nil => intro c x hx; exact Or.inl hx
  | cons r rs' ih =>
    intro c x hx
    simp only [processTokens] at hx
    rcases ih _ x hx with h1 | h1
    · rcases mem_if_upd h1 with h2 | h2
      · exact Or.inl h2
      · exact Or.inr (by rw [h2])
    · exact Or.inr h1

/-- A cache entry carrying the current timestamp survives the rest of the
token loop with that value (every later overwrite writes `now` again). -/
theorem processTokens_lookup_now (fbm : String → SynIndex → Option String)
    (idx : SynIndex) (dc : Bool) (now : Int) (t : String) :
    ∀ (rs : List String) (c : Cache), lookupAssoc c t = some now →
      lookupAssoc (processTokens fbm idx dc now rs c).2 t = some now := by
  intro rs
  induction rs with
  | nil => intro c hc; exact hc
  | cons r rs' ih =>
    intro c hc
    simp only [processTokens]
    exact ih _ (lookup_if_upd_now hc)

/-- A trimmed token that fails all three resolution steps is written to the
cache with the current timestamp when `delayed_clean` is set. -/
theorem processTokens_write (fbm : String → SynIndex → Option String)
    (idx : SynIndex) (now : Int) (r : String)
    (hfail : resolveTokenWith fbm idx (pyStrip r) = []) :
    ∀ (rs : List String) (c : Cache), r ∈ rs →
      lookupAssoc (processTokens fbm idx true now rs c).2 (pyStrip r) = some now := by
  intro rs
  induction rs with
  | nil => intro c hr; cases hr
  | cons r' rs' ih =>
    intro c hr
    rcases List.mem_cons.mp hr with h1 | h1
    · subst h1
      simp only [processTokens]
      apply processTokens_lookup_now
      rw [if_pos hfail]
      simp [lookupAssoc_updAssoc]
    · simp only [processTokens]
      exact ih _ h1

/-! ### The Tanimoto scorer -/

theorem str_eq_empty {s : String} (h : s.data = []) : s = "" := by
  cases s with
  | mk d =>
    have hd : d = [] := h
    rw [hd]

theorem matchCountGo_nil_marks : ∀ cs : List Char, FirstImpl.matchCountGo cs [] = 0 := by
  intro cs
  induction cs with
  | nil => rfl
  | cons c cs' ih => simp [FirstImpl.matchCountGo, FirstImpl.markFirst, ih]

theorem matchCountGo_le : ∀ (cs : List Char) (marks : List (Char × Bool)),
    FirstImpl.matchCountGo cs marks ≤ cs.length := by
  intro cs
  induction cs with
  | nil => intro marks; exact Nat.le_refl 0
  | cons c cs' ih =>
    intro marks
    simp only [FirstImpl.matchCountGo]
    cases FirstImpl.markFirst c marks with
    | none => exact Nat.le_succ_of_le (ih marks)
    | some marks' => exact Nat.succ_le_succ (ih marks')

theorem tanimotoScore_empty_left (k : String) : FirstImpl.tanimotoScore "" k = 0 := by
  simp [FirstImpl.tanimotoScore, FirstImpl.matchCount, FirstImpl.matchCountGo]

theorem tanimotoScore_empty_right (n : String) : FirstImpl.tanimotoScore n "" = 0 := by
  have h : FirstImpl.matchCount n.data [] = 0 := matchCountGo_nil_marks n.data
  simp [FirstImpl.tanimotoScore, h]

/-- The faithful scorer returns a value whenever at least one input is
non-empty: the denominator `len(a) + len(b) - matches` vanishes only when
both strings are empty. -/
theorem is_tokens_fuzzy_equal_some (a b : String) (h : a ≠ "" ∨ b ≠ "") :
    FirstImpl.is_tokens_fuzzy_equal a b = some (FirstImpl.tanimotoScore a b) := by
  rw [FirstImpl.is_tokens_fuzzy_equal, if_neg]
  intro heq
  have hle : FirstImpl.matchCount a.data b.data ≤ a.data.length := matchCountGo_le _ _
  have hlen : a.length = a.data.length := rfl
  have hb : b.length = 0 := by omega
  have hbdata : b.data = [] := List.length_eq_zero.mp hb
  have hm : FirstImpl.matchCount a.data b.data = 0 := by
    rw [FirstImpl.matchCount, hbdata]
    exact matchCountGo_nil_marks a.data
  have ha : a.length = 0 := by omega
  rcases h with h1 | h1
  · exact h1 (str_eq_empty (List.length_eq_zero.mp ha))
  · exact h1 (str_eq_empty hbdata)

/-! ### The selection loop of the first implementation's `find_best_match` -/

theorem fbmGo_all_le (n : String) :
    ∀ (ks : List String) (best : Option String) (bs : ℚ),
      (∀ k ∈ ks, FirstImpl.tanimotoScore n k ≤ bs) →
      FirstImpl.fbmGo n ks best bs = best := by
  intro ks
  induction ks with
  | nil => intro best bs _; rfl
  | cons k ks' ih =>
    intro best bs hk
    have hnot : ¬ bs < FirstImpl.tanimotoScore n k :=
      not_lt.mpr (hk k (List.mem_cons_self _ _))
    simp only [FirstImpl.fbmGo, if_neg hnot]
    exact ih best bs (fun k' hk' => hk k' (List.mem_cons_of_mem _ hk'))

theorem fbmGo_first_max (n kb : String) (l₂ : List String)
    (h₂ : ∀ k ∈ l₂, FirstImpl.tanimotoScore n k ≤ FirstImpl.tanimotoScore n kb) :
    ∀ (l₁ : List String) (best : Option String) (bs : ℚ),
      bs < FirstImpl.tanimotoScore n kb →
      (∀ k ∈ l₁, FirstImpl.tanimotoScore n k < FirstImpl.tanimotoScore n kb) →
      FirstImpl.fbmGo n (l₁ ++ kb :: l₂) best bs = some kb := by
  intro l₁
  induction l₁ with
  | nil =>
    intro best bs hbs _
    simp only [List.nil_append, FirstImpl.fbmGo, if_pos hbs]
    exact fbmGo_all_le n l₂ (some kb) _ h₂
  | cons k l₁' ih =>
    intro best bs hbs h₁
    simp only [List.cons_append, FirstImpl.fbmGo]
    by_cases hlt : bs < FirstImpl.tanimotoScore n k
    · rw [if_pos hlt]
      exact ih _ _ (h₁ k (List.mem_cons_self _ _))
        (fun k' hk' => h₁ k' (List.mem_cons_of_mem _ hk'))
    · rw [if_neg hlt]
      exact ih _ _ hbs (fun k' hk' => h₁ k' (List.mem_cons_of_mem _ hk'))

/-! ### The sequence-matcher scorer on degenerate inputs -/

theorem foldl_self {α β : Type} (g : α → β → α) (hg : ∀ x y, g x y = x) :
    ∀ (l : List β) (x : α), List.foldl g x l = x := by
  intro l
  induction l with
  | nil => intro x; rfl
  | cons y l' ih =>
    intro x
    rw [List.foldl_cons, hg, ih]

theorem findLongestMatch_self_b (a b : List Char) (alo ahi blo : Nat) :
    SecondImpl.findLongestMatch a b alo ahi blo blo = (alo, blo, 0) := by
  unfold SecondImpl.findLongestMatch
  rw [Nat.sub_self]
  exact foldl_self _ (fun x y => rfl) _ _

theorem matchingTotal_nil_right (a : List Char) : SecondImpl.matchingTotal a [] = 0 := by
  show SecondImpl.matchingTotalGo a [] (a.length + 0 + 1) 0 a.length 0 0 = 0
  simp [SecondImpl.matchingTotalGo, findLongestMatch_self_b]

theorem ratioScore_empty_right (a : String) (ha : a ≠ "") :
    SecondImpl.ratioScore a "" = 0 := by
  have hlen : ¬ (a.length + String.length "" = 0) := by
    intro h0
    have h1 : a.length = a.data.length := rfl
    have h2 : String.length "" = 0 := rfl
    exact ha (str_eq_empty (List.length_eq_zero.mp (by omega)))
  rw [SecondImpl.ratioScore, if_neg hlen]
  have : SecondImpl.matchingTotal a.data "".data = 0 := matchingTotal_nil_right a.data
  simp [this]

/-! ### Resolution of the empty token -/

theorem normalize_tag_empty : normalize_tag "" = "" := rfl

theorem split_composite_empty (idx : SynIndex) : split_composite_tag "" idx = [] := rfl

theorem firstImpl_fbm_empty_tag (idx : SynIndex) :
    FirstImpl.find_best_match "" idx = none := by
  rw [FirstImpl.find_best_match, normalize_tag_empty]
  rw [fbmGo_all_le "" (idx.map Prod.fst) none (3 / 5)
    (fun k _ => by rw [tanimotoScore_empty_left]; norm_num)]

theorem secondImpl_fbm_empty_tag (idx : SynIndex) (h : lookupAssoc idx "" = none) :
    SecondImpl.find_best_match "" idx = none := by
  rw [SecondImpl.find_best_match, normalize_tag_empty]
  have hfilter : (idx.map (fun kv => (SecondImpl.ratioScore kv.1 "", kv.1))).filter
      (fun p => decide ((3 : ℚ) / 5 ≤ p.1)) = [] := by
    rw [List.filter_eq_nil_iff]
    intro x hx
    obtain ⟨kv, hkv, hx⟩ := List.mem_map.mp hx
    obtain ⟨k, v⟩ := kv
    have hk : k ≠ "" := by
      intro hk0
      subst hk0
      exact lookupAssoc_eq_none_not_mem h v hkv
    rw [← hx]
    simp only [ratioScore_empty_right k hk, decide_eq_true_eq]
    norm_num
  rw [hfilter]
  rfl

theorem firstImpl_resolve_empty (idx : SynIndex) (h : lookupAssoc idx "" = none) :
    resolveTokenWith FirstImpl.find_best_match idx "" = [] := by
  rw [resolveTokenWith, normalize_tag_empty, h, split_composite_empty,
    firstImpl_fbm_empty_tag]

theorem secondImpl_resolve_empty (idx : SynIndex) (h : lookupAssoc idx "" = none) :
    resolveTokenWith SecondImpl.find_best_match idx "" = [] := by
  rw [resolveTokenWith, normalize_tag_empty, h, split_composite_empty,
    secondImpl_fbm_empty_tag idx h]

/-! ### Both fuzzy matchers depend on the raw tag only through its
normalization -/

theorem firstImpl_fbm_norm (t1 t2 : String) (idx : SynIndex)
    (h : normalize_tag t1 = normalize_tag t2) :
    FirstImpl.find_best_match t1 idx = FirstImpl.find_best_match t2 idx := by
  simp only [FirstImpl.find_best_match, h]

theorem secondImpl_fbm_norm (t1 t2 : String) (idx : SynIndex)
    (h : normalize_tag t1 = normalize_tag t2) :
    SecondImpl.find_best_match t1 idx = SecondImpl.find_best_match t2 idx := by
  simp only [SecondImpl.find_best_match, h]

/-- Per-token resolution is determined by the normalized token together with
the raw token's composite split. -/
theorem resolveToken_norm (fbm : String → SynIndex → Option String) (idx : SynIndex)
    (t1 t2 : String) (hn : normalize_tag t1 = normalize_tag t2)
    (hs : split_composite_tag t1 idx = split_composite_tag t2 idx)
    (hf : fbm t1 idx = fbm t2 idx) :
    resolveTokenWith fbm idx t1 = resolveTokenWith fbm idx t2 := by
  rw [resolveTokenWith, resolveTokenWith, hn, hs, hf]

/-! ### Already-canonical tokens pass through unchanged -/

theorem processTokens_exact (fbm : String → SynIndex → Option String) (idx : SynIndex)
    (dc : Bool) (now : Int) :
    ∀ (rs : List String) (c : Cache),
      (∀ r ∈ rs, lookupAssoc idx (normalize_tag (pyStrip r)) = some (pyStrip r)) →
      processTokens fbm idx dc now rs c = (rs.map pyStrip, c) := by
  intro rs
  induction rs with
  | nil => intro c _; rfl
  | cons r rs' ih =>
    intro c h
    have hr := h r (List.mem_cons_self _ _)
    have hcontrib : resolveTokenWith fbm idx (pyStrip r) = [pyStrip r] := by
      rw [resolveTokenWith, hr]
    simp only [processTokens, hcontrib]
    rw [if_neg (by simp)]
    rw [ih c (fun r' hr' => h r' (List.mem_cons_of_mem _ hr'))]
    rfl

/-! ### Tokens that resolve without the fuzzy step treat the two matchers
identically -/

theorem resolveToken_no_fuzzy (fbm₁ fbm₂ : String → SynIndex → Option String)
    (idx : SynIndex) (t : String)
    (h : lookupAssoc idx (normalize_tag t) ≠ none ∨ split_composite_tag t idx ≠ []) :
    resolveTokenWith fbm₁ idx t = resolveTokenWith fbm₂ idx t := by
  rw [resolveTokenWith, resolveTokenWith]
  cases hl : lookupAssoc idx (normalize_tag t) with
  | some v => rfl
  | none =>
    cases hs : split_composite_tag t idx with
    | cons p ps => rfl
    | nil =>
      exfalso
      rcases h with h1 | h1
      · exact h1 hl
      · exact h1 hs

theorem processTokens_no_fuzzy (fbm₁ fbm₂ : String → SynIndex → Option String)
    (idx : SynIndex) (dc : Bool) (now : Int) :
    ∀ (rs : List String) (c : Cache),
      (∀ r ∈ rs, lookupAssoc idx (normalize_tag (pyStrip r)) ≠ none ∨
        split_composite_tag (pyStrip r) idx ≠ []) →
      processTokens fbm₁ idx dc now rs c = processTokens fbm₂ idx dc now rs c := by
  intro rs
  induction rs with
  | nil => intro c _; rfl
  | cons r rs' ih =>
    intro c h
    simp only [processTokens]
    rw [resolveToken_no_fuzzy fbm₁ fbm₂ idx (pyStrip r) (h r (List.mem_cons_self _ _))]
    rw [ih _ (fun r' hr' => h r' (List.mem_cons_of_mem _ hr'))]

/-! ### Behaviour on the empty input string -/

theorem reconcile_nil_res (c : Cache) : reconcile c [] = c := by
  rw [reconcile_eq_filter]
  simp

/-- `"".split(";")` is `[""]`, so the empty input is processed as one empty
token: it resolves to nothing (when the empty string is not an index key), and
with `delayed_clean` it is recorded in the cache under the key `""`. -/
theorem apply_empty_generic (fbm : String → SynIndex → Option String)
    (rules : List AllowedTagRecord) (dc : Bool) (now : Int) (cache : Cache)
    (hres : resolveTokenWith fbm (buildIndex rules) "" = []) :
    applyTagRulesWith fbm "" rules dc now cache
      = ("", if dc then updAssoc (clean_cache cache now) "" now
          else clean_cache cache now) := by
  have hstrip : pyStrip "" = "" := rfl
  have hpr : processTokens fbm (buildIndex rules) dc now (pySplit ";" "")
      (clean_cache cache now)
      = ([], if dc then updAssoc (clean_cache cache now) "" now
          else clean_cache cache now) := by
    show processTokens fbm (buildIndex rules) dc now [""] (clean_cache cache now) = _
    simp only [processTokens, hstrip, hres]
    simp
  simp only [applyTagRulesWith]
  rw [hpr]
  dsimp only
  by_cases hdc : dc = true
  · rw [if_pos hdc, if_pos hdc, reconcile_nil_res]
    rfl
  · rw [if_neg hdc, if_neg hdc]
    rfl

end TagRules

/-! ## The claims -/

namespace TagRules

set_option maxRecDepth 8000

/-- C1, counterexample: with `delayed_clean=true`, a token (`"zzz"`) that is
already cached (timestamp `-5`) and again fails exact, composite and fuzzy
resolution has its cache entry overwritten with the current timestamp `0` —
it does not keep the timestamp of its first rejection. -/
theorem c1_counterexample :
    (FirstImpl.apply_tag_rules "zzz" [⟨"foo", none, false, false⟩] true 0
      [("zzz", -5)]).2 = [("zzz", 0)] ∧ (0 : Int) ≠ -5 := by
  constructor
  · with_unfolding_all decide
  · decide

/-- C1 (amended): the invalid-tag cache is never consulted during token
resolution, so a cached raw token that again fails exact, composite and fuzzy
resolution is re-evaluated by every step including the fuzzy matcher, and its
cache entry is overwritten with the current timestamp (the time of the most
recent rejection), provided the raw token is not produced as a canonical name
by the current run. -/
theorem c1_cached_token_overwritten (fbm : String → SynIndex → Option String)
    (tags : String) (rules : List AllowedTagRecord) (now : Int) (cache : Cache)
    (r : String) (t0 : Int)
    (hr : r ∈ pySplit ";" tags)
    (_hcached : lookupAssoc (clean_cache cache now) (pyStrip r) = some t0)
    (hfail : resolveTokenWith fbm (buildIndex rules) (pyStrip r) = [])
    (hout : pyStrip r ∉ (processTokens fbm (buildIndex rules) true now
      (pySplit ";" tags) (clean_cache cache now)).1) :
    lookupAssoc (applyTagRulesWith fbm tags rules true now cache).2 (pyStrip r)
      = some now := by
  simp only [applyTagRulesWith]
  rw [if_pos trivial, reconcile_eq_filter, lookupAssoc_filter_not_mem _ _ _ hout]
  exact processTokens_write fbm _ now r hfail _ _ hr

/-- C1 witness: the amended theorem applied at the counterexample input. -/
theorem c1_witness :
    lookupAssoc (applyTagRulesWith FirstImpl.find_best_match "zzz"
      [⟨"foo", none, false, false⟩] true 0 [("zzz", -5)]).2 (pyStrip "zzz")
      = some 0 :=
  c1_cached_token_overwritten FirstImpl.find_best_match "zzz"
    [⟨"foo", none, false, false⟩] 0 [("zzz", -5)] "zzz" (-5)
    (by decide) (by decide) (by with_unfolding_all decide)
    (by with_unfolding_all decide)

/-- C2, counterexample: on the empty input with `delayed_clean=true` the
implementations do process one (empty) token: an entry for the empty string
is added to the initially empty invalid-tag cache. -/
theorem c2_counterexample :
    (FirstImpl.apply_tag_rules "" [⟨"foo", none, false, false⟩] true 0 []).2
      = [("", 0)] ∧ ([("", (0 : Int))] : Cache) ≠ [] := by
  constructor
  · with_unfolding_all decide
  · decide

/-- C2 (amended): for every rule table whose synonym index has no key equal to
the empty string, and both values of `delayed_clean`, `apply_tag_rules` on the
empty input returns the empty output string; but the single empty token is
processed like any other: with `delayed_clean=true` an entry for the empty
string is recorded in the (cleaned) cache with the current timestamp. -/
theorem c2_empty_input (rules : List AllowedTagRecord) (dc : Bool) (now : Int)
    (cache : Cache) (h : lookupAssoc (buildIndex rules) "" = none) :
    FirstImpl.apply_tag_rules "" rules dc now cache
        = ("", if dc then updAssoc (clean_cache cache now) "" now
            else clean_cache cache now)
    ∧ SecondImpl.apply_tag_rules "" rules dc now cache
        = ("", if dc then updAssoc (clean_cache cache now) "" now
            else clean_cache cache now) :=
  ⟨apply_empty_generic _ rules dc now cache (firstImpl_resolve_empty _ h),
   apply_empty_generic _ rules dc now cache (secondImpl_resolve_empty _ h)⟩

/-- C2 witness: the amended theorem applied at a concrete rule table. -/
theorem c2_witness :
    FirstImpl.apply_tag_rules "" [⟨"foo", none, false, false⟩] true 0 []
        = ("", if true then updAssoc (clean_cache [] 0) "" 0 else clean_cache [] 0)
    ∧ SecondImpl.apply_tag_rules "" [⟨"foo", none, false, false⟩] true 0 []
        = ("", if true then updAssoc (clean_cache [] 0) "" 0 else clean_cache [] 0) :=
  c2_empty_input [⟨"foo", none, false, false⟩] true 0 [] (by decide)

/-- C3, counterexample: `"AbC"` and `"abc"` normalize to the same string, but
the composite splitter works on the raw token, so against the rule table
`{ab, c}` the first resolves to `"ab; c"` (split at the uppercase boundary)
while the second resolves to `"ab"` (fuzzy match of the whole token). -/
theorem c3_counterexample :
    normalize_tag "AbC" = normalize_tag "abc"
    ∧ (FirstImpl.apply_tag_rules "AbC" [⟨"ab", none, false, false⟩,
        ⟨"c", none, false, false⟩] true 0 []).1 = "ab; c"
    ∧ (FirstImpl.apply_tag_rules "abc" [⟨"ab", none, false, false⟩,
        ⟨"c", none, false, false⟩] true 0 []).1 = "ab"
    ∧ ("ab; c" : String) ≠ "ab" := by
  refine ⟨by decide, ?_, ?_, by decide⟩
  · with_unfolding_all decide
  · with_unfolding_all decide

/-- C3 (amended): any two raw tokens that normalize to the same string *and*
whose composite splits against the index coincide resolve to the same
canonical outcome, in both implementations (exact and fuzzy matching depend
only on the normalized token; composite splitting inspects the raw token). -/
theorem c3_normalization_invariance (idx : SynIndex) (t1 t2 : String)
    (hn : normalize_tag t1 = normalize_tag t2)
    (hs : split_composite_tag t1 idx = split_composite_tag t2 idx) :
    resolveTokenWith FirstImpl.find_best_match idx t1
        = resolveTokenWith FirstImpl.find_best_match idx t2
    ∧ resolveTokenWith SecondImpl.find_best_match idx t1
        = resolveTokenWith SecondImpl.find_best_match idx t2 :=
  ⟨resolveToken_norm _ idx t1 t2 hn hs (firstImpl_fbm_norm t1 t2 idx hn),
   resolveToken_norm _ idx t1 t2 hn hs (secondImpl_fbm_norm t1 t2 idx hn)⟩

/-- C3 witness: the amended theorem applied to `"A"` and `"a"`. -/
theorem c3_witness :
    resolveTokenWith FirstImpl.find_best_match [("a", "a")] "A"
        = resolveTokenWith FirstImpl.find_best_match [("a", "a")] "a"
    ∧ resolveTokenWith SecondImpl.find_best_match [("a", "a")] "A"
        = resolveTokenWith SecondImpl.find_best_match [("a", "a")] "a" :=
  c3_normalization_invariance [("a", "a")] "A" "a" (by decide) (by decide)

/-- C4, counterexample: in the second implementation a key whose ratio equals
the threshold exactly is accepted — `difflib.get_close_matches` uses an
inclusive cutoff (`>=`), not the strict `>` the claim states for both
implementations: `ratio("abczw", "abcxy") = 0.6` and the key is returned. -/
theorem c4_counterexample :
    SecondImpl.ratioScore "abczw" (normalize_tag "abcxy") = 3 / 5
    ∧ ¬ ((3 : ℚ) / 5 > 3 / 5)
    ∧ SecondImpl.find_best_match "abcxy" [("abczw", "abczw")] = some "abczw" := by
  refine ⟨?_, by norm_num, ?_⟩
  · with_unfolding_all decide
  · with_unfolding_all decide

/-- C4 (amended): in the *first* implementation a Synonym-Index key counts as
a fuzzy match only when its Tanimoto score is strictly greater than `0.6`,
and candidate selection keeps the single highest-scoring key, ties resolved
to the first found in the index's stable iteration order; the second
implementation instead accepts keys whose score is at least `0.6`.  The
first hypothesis excludes the one input pattern (empty normalized tag
scored against an empty key) on which the Python scorer raises
`ZeroDivisionError` instead of returning. -/
theorem c4_first_impl_selection (tag : String) (idx : SynIndex)
    (_hsafe : normalize_tag tag = "" → lookupAssoc idx "" = none) :
    ((∀ k ∈ idx.map Prod.fst,
        FirstImpl.tanimotoScore (normalize_tag tag) k ≤ 3 / 5) →
      FirstImpl.find_best_match tag idx = none)
    ∧ (∀ (l₁ l₂ : List String) (kb : String), idx.map Prod.fst = l₁ ++ kb :: l₂ →
        3 / 5 < FirstImpl.tanimotoScore (normalize_tag tag) kb →
        (∀ k ∈ l₁, FirstImpl.tanimotoScore (normalize_tag tag) k
          < FirstImpl.tanimotoScore (normalize_tag tag) kb) →
        (∀ k ∈ l₂, FirstImpl.tanimotoScore (normalize_tag tag) k
          ≤ FirstImpl.tanimotoScore (normalize_tag tag) kb) →
        FirstImpl.find_best_match tag idx = lookupAssoc idx kb) := by
  constructor
  · intro hall
    rw [FirstImpl.find_best_match,
      fbmGo_all_le (normalize_tag tag) (idx.map Prod.fst) none (3 / 5) hall]
  · intro l₁ l₂ kb hidx hgt h₁ h₂
    rw [FirstImpl.find_best_match, hidx,
      fbmGo_first_max (normalize_tag tag) kb l₂ h₂ l₁ none (3 / 5) hgt h₁]
    have hkb : ¬ kb = "" := by
      intro h0
      rw [h0, tanimotoScore_empty_right] at hgt
      norm_num at hgt
    dsimp only
    rw [if_neg hkb]

/-- C4 witness: the amended theorem applied at a concrete index. -/
theorem c4_witness :
    3 / 5 < FirstImpl.tanimotoScore (normalize_tag "abcd") "abc"
    ∧ FirstImpl.find_best_match "abcd" [("abc", "X")]
        = lookupAssoc [("abc", "X")] "abc" :=
  ⟨by with_unfolding_all decide,
   (c4_first_impl_selection "abcd" [("abc", "X")] (by decide)).2 [] [] "abc" rfl
     (by with_unfolding_all decide) (by simp) (by simp)⟩

/-- C5: with `delayed_clean=true`, after processing all tokens the
reconciliation loop removes from the cache exactly those raw keys that are
verbatim equal to some canonical name in the current run's resolved output
sequence (`result_tags`), with no normalization on either side, and removes
no other entry: the final cache is precisely the processed cache filtered by
non-membership of the raw key in `result_tags`. -/
theorem c5_reconciliation_exact (fbm : String → SynIndex → Option String)
    (tags : String) (rules : List AllowedTagRecord) (now : Int) (cache : Cache) :
    (applyTagRulesWith fbm tags rules true now cache).2
      = ((processTokens fbm (buildIndex rules) true now (pySplit ";" tags)
          (clean_cache cache now)).2).filter
        (fun kv => !decide (kv.1 ∈ (processTokens fbm (buildIndex rules) true now
          (pySplit ";" tags) (clean_cache cache now)).1)) := by
  simp only [applyTagRulesWith]
  rw [if_pos trivial]
  exact reconcile_eq_filter _ _

/-- C6: after every call — for either value of `delayed_clean` — no entry of
the persisted cache is strictly older than `CACHE_EXPIRATION_DAYS` (14 days):
the cache is loaded, cleaned and saved on every call, and every new entry is
written with the current timestamp. -/
theorem c6_ttl_law (fbm : String → SynIndex → Option String) (tags : String)
    (rules : List AllowedTagRecord) (dc : Bool) (now : Int) (cache : Cache)
    (k : String) (t : Int)
    (hmem : (k, t) ∈ (applyTagRulesWith fbm tags rules dc now cache).2) :
    ¬ (now - t > CACHE_EXPIRATION_DAYS) := by
  rw [not_lt]
  have hmem2 : (k, t) ∈ (processTokens fbm (buildIndex rules) dc now
      (pySplit ";" tags) (clean_cache cache now)).2 := by
    simp only [applyTagRulesWith] at hmem
    by_cases hdc : dc = true
    · rw [if_pos hdc, reconcile_eq_filter] at hmem
      exact List.mem_of_mem_filter hmem
    · rwa [if_neg hdc] at hmem
  rcases processTokens_snd_mem fbm _ dc now _ _ _ hmem2 with h1 | h1
  · exact mem_clean_cache h1
  · have ht : t = now := h1
    show CACHE_EXPIRATION_DAYS ≥ now - t
    rw [ht]
    simp [CACHE_EXPIRATION_DAYS]

/-- C6 witness: the theorem applied at a concrete run. -/
theorem c6_witness : ¬ ((0 : Int) - (-3) > CACHE_EXPIRATION_DAYS) :=
  c6_ttl_law FirstImpl.find_best_match "" [] false 0 [("a", -3)] "a" (-3)
    (by with_unfolding_all decide)

/-- C7, counterexample: on two empty strings the Python scorer divides by
zero (`ZeroDivisionError`, modelled as `none`) instead of returning the
score `0` — the scorer is not total. -/
theorem c7_counterexample : FirstImpl.is_tokens_fuzzy_equal "" "" = none := rfl

/-- C7 (amended): the character-overlap scorer returns a score for every pair
of input strings of which at least one is non-empty; on the pair of empty
strings the denominator is zero and the code raises instead of returning 0. -/
theorem c7_scorer_total (a b : String) (h : a ≠ "" ∨ b ≠ "") :
    FirstImpl.is_tokens_fuzzy_equal a b = some (FirstImpl.tanimotoScore a b) :=
  is_tokens_fuzzy_equal_some a b h

/-- C7 witness: the amended theorem applied at `("a", "")`. -/
theorem c7_witness :
    FirstImpl.is_tokens_fuzzy_equal "a" ""
      = some (FirstImpl.tanimotoScore "a" "") :=
  c7_scorer_total "a" "" (Or.inl (by decide))

/-- C8, counterexample: the input `"foo"` exactly matches the `allowed_name`
of the first rule, yet the output is `"bar"`, because the second rule's
synonym `"foo"` overwrites the allowed-name key in the synonym index
(last-write-wins). -/
theorem c8_counterexample :
    (FirstImpl.apply_tag_rules "foo" [⟨"foo", none, false, false⟩,
        ⟨"bar", some "foo", false, false⟩] true 0 []).1 = "bar"
    ∧ ("bar" : String) ≠ "foo" := by
  constructor
  · with_unfolding_all decide
  · decide

/-- C8 (amended): for every rule table and input string such that the synonym
index maps each trimmed token's normalized form back to that token itself
(in particular each token equals an `allowed_name` whose index entry is not
overwritten by any later duplicate name or synonym), `apply_tag_rules`
returns those tokens deduplicated by first occurrence and joined with
`"; "` — the input unchanged when it was already in that form. -/
theorem c8_idempotence (fbm : String → SynIndex → Option String) (tags : String)
    (rules : List AllowedTagRecord) (dc : Bool) (now : Int) (cache : Cache)
    (h : ∀ r ∈ pySplit ";" tags,
      lookupAssoc (buildIndex rules) (normalize_tag (pyStrip r)) = some (pyStrip r)) :
    (applyTagRulesWith fbm tags rules dc now cache).1
      = pyJoin "; " (dedupFirst ((pySplit ";" tags).map pyStrip)) := by
  simp only [applyTagRulesWith]
  rw [processTokens_exact fbm _ dc now _ _ h]

/-- C8 witness: the amended theorem applied at a concrete canonical input. -/
theorem c8_witness :
    (applyTagRulesWith FirstImpl.find_best_match "foo"
      [⟨"foo", none, false, false⟩] true 0 []).1
      = pyJoin "; " (dedupFirst ((pySplit ";" "foo").map pyStrip)) :=
  c8_idempotence FirstImpl.find_best_match "foo" [⟨"foo", none, false, false⟩]
    true 0 [] (by decide)

/-- C9, counterexample: the two implementations are not functionally
interchangeable — on the token `"abcxy"` against the rule `"abczw"` the
Tanimoto score is `3/7 < 0.6` (no match, first implementation returns `""`)
while the sequence-matcher ratio is exactly `0.6`, accepted by the inclusive
cutoff (second implementation returns `"abczw"`). -/
theorem c9_counterexample :
    (FirstImpl.apply_tag_rules "abcxy" [⟨"abczw", none, false, false⟩]
        false 0 []).1 = ""
    ∧ (SecondImpl.apply_tag_rules "abcxy" [⟨"abczw", none, false, false⟩]
        false 0 []).1 = "abczw"
    ∧ ("" : String) ≠ "abczw" := by
  refine ⟨?_, ?_, by decide⟩
  · with_unfolding_all decide
  · with_unfolding_all decide

/-- C9 (amended): the two implementations return identical results (output
string and final cache) on every input whose tokens all resolve without the
fuzzy step, i.e. by exact lookup or by composite splitting; they differ only
in their fuzzy matcher. -/
theorem c9_no_fuzzy_agreement (tags : String) (rules : List AllowedTagRecord)
    (dc : Bool) (now : Int) (cache : Cache)
    (h : ∀ r ∈ pySplit ";" tags,
      lookupAssoc (buildIndex rules) (normalize_tag (pyStrip r)) ≠ none ∨
      split_composite_tag (pyStrip r) (buildIndex rules) ≠ []) :
    FirstImpl.apply_tag_rules tags rules dc now cache
      = SecondImpl.apply_tag_rules tags rules dc now cache := by
  simp only [FirstImpl.apply_tag_rules, SecondImpl.apply_tag_rules,
    applyTagRulesWith]
  rw [processTokens_no_fuzzy FirstImpl.find_best_match SecondImpl.find_best_match
    _ dc now _ _ h]

/-- C9 witness: the amended theorem applied at a concrete exact-match input. -/
theorem c9_witness :
    FirstImpl.apply_tag_rules "ab" [⟨"ab", none, false, false⟩] true 0 []
      = SecondImpl.apply_tag_rules "ab" [⟨"ab", none, false, false⟩] true 0 [] :=
  c9_no_fuzzy_agreement "ab" [⟨"ab", none, false, false⟩] true 0 [] (by decide)

/-- C10: the output string of `apply_tag_rules` does not depend on the loaded
invalid-tag cache, in either implementation: the cache is threaded through
the token loop but never consulted during resolution. -/
theorem c10_output_cache_independent (tags : String) (rules : List AllowedTagRecord)
    (dc : Bool) (now : Int) (c₁ c₂ : Cache) :
    (FirstImpl.apply_tag_rules tags rules dc now c₁).1
        = (FirstImpl.apply_tag_rules tags rules dc now c₂).1
    ∧ (SecondImpl.apply_tag_rules tags rules dc now c₁).1
        = (SecondImpl.apply_tag_rules tags rules dc now c₂).1 := by
  constructor
  · simp only [FirstImpl.apply_tag_rules, applyTagRulesWith]
    rw [processTokens_fst, processTokens_fst]
  · simp only [SecondImpl.apply_tag_rules, applyTagRulesWith]
    rw [processTokens_fst, processTokens_fst]

end TagRules
